import Mathlib

/-!
Verification of the rusty_coin_dns node registry (src/main.rs).

The registry is a process-wide `Vec<Node>` behind a mutex; the three
operations are embedded here as pure functions on `List Node`.  The random
selection performed by `nodes.choose(&mut rand::thread_rng())` is modelled
by a uniform index draw: the operation takes an arbitrary natural number
`i` and indexes the list at `i % length`, so ranging over all `i` ranges
over exactly the possible outcomes of the uniform choice.
-/

namespace RustyCoinDns

/-- The `Node` struct of src/main.rs: an IPv4 textual address, a reserved
optional IPv6 address, and a `u16` port (modelled as `Nat`; no arithmetic
is performed on it). -/
structure Node where
  ipv4_address : String
  ipv6_address : Option String
  port : Nat
deriving DecidableEq, Repr

/-- The node actually stored or returned by the handlers: `ipv4_address`
and `port` are copied from the input and `ipv6_address` is set to `None`,
exactly as in the struct literals at lines 59–63 and 85–89 of main.rs. -/
def normalizeNode (n : Node) : Node :=
  { ipv4_address := n.ipv4_address, ipv6_address := none, port := n.port }

/-- The `/register` handler's effect on the shared vector: `Vec::push` of
the rebuilt node (main.rs lines 54–64). -/
def register (info : Node) (s : List Node) : List Node :=
  s ++ [normalizeNode info]

/-- The `/deregister` handler's effect on the shared vector:
`retain(|node| node.ipv4_address != info.ipv4_address || node.port != info.port)`
(main.rs lines 46–48). -/
def deregister (info : Node) (s : List Node) : List Node :=
  s.filter fun node =>
    node.ipv4_address != info.ipv4_address || node.port != info.port

/-- The `/query` handler (main.rs lines 70–90): it only reads the vector,
returning `none` when it is empty and otherwise a freshly built copy
(ipv6 field set to `None`) of the entry selected by the uniform index
draw.  The returned pair is (vector after the call, response). -/
def query (s : List Node) (i : Nat) : List Node × Option Node :=
  match s with
  | [] => ([], none)
  | x :: xs =>
      (x :: xs, some (normalizeNode ((x :: xs).getD (i % (xs.length + 1)) x)))

/-- The response component of `query`. -/
def pickRandom (s : List Node) (i : Nat) : Option Node :=
  (query s i).2

/-- The matching key used by `deregister`: `(ipv4_address, port)` pairwise
equality. -/
def matchesKey (d n : Node) : Bool :=
  n.ipv4_address == d.ipv4_address && n.port == d.port

/-- `k` successive `/register` calls with the same body. -/
def registerTimes (k : Nat) (n : Node) (s : List Node) : List Node :=
  match k with
  | 0 => s
  | k + 1 => registerTimes k n (register n s)

/-- A mutating request to the registry. -/
inductive Op where
  | register (n : Node)
  | deregister (n : Node)
deriving DecidableEq, Repr

/-- One mutating request applied to the shared vector. -/
def applyOp (s : List Node) (op : Op) : List Node :=
  match op with
  | .register n => register n s
  | .deregister n => deregister n s

/-- A whole history of mutating requests run from the initial empty vector
(`NODES` starts as `Vec::new()`, main.rs line 107). -/
def run (ops : List Op) : List Node :=
  ops.foldl applyOp []

/-- Whether some later request in `ops` deregisters the key of `n`. -/
def removedLater (n : Node) (ops : List Op) : Bool :=
  ops.any fun op =>
    match op with
    | .deregister d => matchesKey d n
    | .register _ => false

/-- The specification-level contents of the registry after a history: the
normalized node of each `register` call that is not followed by a
`deregister` call matching its key, in order of registration. -/
def survivors : List Op → List Node
  | [] => []
  | Op.register n :: rest =>
      (if removedLater (normalizeNode n) rest then [] else [normalizeNode n])
        ++ survivors rest
  | Op.deregister _ :: rest => survivors rest

/-- A concrete node used by witnesses. -/
def nodeA : Node :=
  { ipv4_address := "10.0.0.1", ipv6_address := none, port := 9000 }

/-- A concrete node with a different key, used by witnesses. -/
def nodeB : Node :=
  { ipv4_address := "10.0.0.2", ipv6_address := some "::1", port := 9001 }

/-- C1: `Register(n)` appends exactly one element that agrees with `n` on
`(address, port)` with the optional IPv6 field cleared to `None`, and every
pre-existing element is unchanged (the old sequence is the prefix of the
new one). -/
theorem register_appends_one (s : List Node) (n : Node) :
    (register n s).length = s.length + 1 ∧
    (register n s).take s.length = s ∧
    (register n s).getLast? =
      some { ipv4_address := n.ipv4_address, ipv6_address := none,
             port := n.port } := by
  refine ⟨?_, ?_, ?_⟩
  · simp [register]
  · simp [register]
  · simp [register, normalizeNode]

/-- C10: `/query` never modifies the registry: the vector after the call is
identical, element for element, to the vector before it. -/
theorem query_preserves_registry (s : List Node) (i : Nat) :
    (query s i).1 = s := by
  cases s <;> rfl

/-- C4: after `Register(n)` on an otherwise-empty registry, every possible
outcome of the random pick is `some` node agreeing with `n` on
`(address, port)`. -/
theorem register_then_query (n : Node) (i : Nat) :
    ∃ m, pickRandom (register n []) i = some m ∧
      m.ipv4_address = n.ipv4_address ∧ m.port = n.port := by
  refine ⟨normalizeNode n, ?_, rfl, rfl⟩
  simp [pickRandom, query, register, normalizeNode]

lemma deregister_registerTimes (d : Node) (k : Nat) (s : List Node) :
    deregister d (registerTimes k d s) = deregister d s := by
  induction k generalizing s with
  | zero => rfl
  | succ k ih =>
      rw [registerTimes, ih]
      simp [deregister, register, normalizeNode, List.filter_append]

/-- C2: `Deregister(d)` removes every entry whose `(address, port)` equals
`d`'s (no matching entry survives), and after registering the same pair `k`
times on an empty registry, one deregister empties it, so any subsequent
pick returns the empty result. -/
theorem deregister_removes_all (s : List Node) (d : Node) (k i : Nat) :
    (deregister d s).countP (fun x => matchesKey d x) = 0 ∧
    pickRandom (deregister d (registerTimes k d [])) i = none := by
  constructor
  · rw [List.countP_eq_zero]
    intro x hx
    rw [deregister, List.mem_filter] at hx
    revert hx
    simp [matchesKey]
    tauto
  · rw [deregister_registerTimes]
    rfl

/-- C6: deregistering a `(address, port)` pair matching no entry leaves the
vector unchanged (hence its size too); the operation still completes
normally. -/
theorem deregister_no_match_noop (s : List Node) (d : Node)
    (h : ∀ x ∈ s, ¬(x.ipv4_address = d.ipv4_address ∧ x.port = d.port)) :
    deregister d s = s := by
  rw [deregister, List.filter_eq_self]
  intro x hx
  have hxd := h x hx
  simp only [Bool.or_eq_true, bne_iff_ne, ne_eq]
  tauto

/-- Witness for C6 at a concrete registry holding one non-matching node. -/
theorem deregister_no_match_noop_witness :
    deregister nodeA [nodeB] = [nodeB] :=
  deregister_no_match_noop [nodeB] nodeA (by decide)

/-- C7: `Register` performs no duplicate check: it always adds exactly one
entry matching its own key, so when the registry already holds a matching
entry the result holds at least two matching (duplicate) entries. -/
theorem register_no_dup_check (s : List Node) (n : Node)
    (h : ∃ x ∈ s, matchesKey n x = true) :
    (register n s).countP (fun x => matchesKey n x)
      = s.countP (fun x => matchesKey n x) + 1 ∧
    2 ≤ (register n s).countP (fun x => matchesKey n x) := by
  have hstep : (register n s).countP (fun x => matchesKey n x)
      = s.countP (fun x => matchesKey n x) + 1 := by
    simp [register, List.countP_append, matchesKey, normalizeNode,
      List.countP_cons]
  refine ⟨hstep, ?_⟩
  have hpos : 0 < s.countP (fun x => matchesKey n x) :=
    List.countP_pos_iff.mpr h
  omega

/-- Witness for C7: registering `nodeA` when its normalized copy is already
present yields two matching entries. -/
theorem register_no_dup_check_witness :
    (register nodeA [normalizeNode nodeA]).countP
        (fun x => matchesKey nodeA x)
      = List.countP (fun x => matchesKey nodeA x) [normalizeNode nodeA] + 1 ∧
    2 ≤ (register nodeA [normalizeNode nodeA]).countP
        (fun x => matchesKey nodeA x) :=
  register_no_dup_check [normalizeNode nodeA] nodeA
    ⟨normalizeNode nodeA, by decide, by decide⟩

lemma getD_head_mem {α : Type} (x : α) (xs : List α) (j : Nat) :
    (x :: xs).getD j x ∈ x :: xs := by
  rcases Nat.lt_or_ge j (x :: xs).length with h | h
  · rw [List.getD_eq_getElem _ _ h]
    exact List.getElem_mem h
  · rw [List.getD_eq_default _ _ h]
    exact List.mem_cons_self x xs

lemma pick_empty_iff_of_ipv6_none (s : List Node) (i : Nat)
    (hinv : ∀ x ∈ s, x.ipv6_address = none) :
    (pickRandom s i = none ↔ s = []) ∧
    (s ≠ [] → ∃ x ∈ s, pickRandom s i = some x) := by
  cases s with
  | nil =>
      refine ⟨by simp [pickRandom, query], fun h => absurd rfl h⟩
  | cons x xs =>
      constructor
      · simp [pickRandom, query]
      · intro _
        refine ⟨(x :: xs).getD (i % (xs.length + 1)) x, getD_head_mem x xs _, ?_⟩
        have hmem := getD_head_mem x xs (i % (xs.length + 1))
        have h6 := hinv _ hmem
        have hnorm : normalizeNode ((x :: xs).getD (i % (xs.length + 1)) x)
            = (x :: xs).getD (i % (xs.length + 1)) x := by
          cases hd : (x :: xs).getD (i % (xs.length + 1)) x with
          | mk a b p =>
              rw [hd] at h6
              simp only at h6
              simp [normalizeNode, h6]
        rw [pickRandom, query]
        exact congrArg some hnorm

lemma countP_range_getD {α : Type} (l : List α) (d : α) (p : α → Bool) :
    (List.range l.length).countP (fun i => p (l.getD i d)) = l.countP p := by
  induction l with
  | nil => simp
  | cons x xs ih =>
      rw [List.length_cons, List.range_succ_eq_map, List.countP_cons,
        List.countP_map]
      simp only [Function.comp_def, List.getD_cons_succ, List.getD_cons_zero]
      rw [ih, List.countP_cons]

/-- C8: the pick is a uniform index draw over all current entries with no
deduplication: over the `n` equally likely index outcomes, the number that
return `some v` equals the number of entries whose stored (normalized) form
is `v` — so an entry present twice is returned by twice as many outcomes as
an entry present once. -/
theorem pickRandom_uniform_over_entries (s : List Node) (v : Node) :
    (List.range s.length).countP (fun i => decide (pickRandom s i = some v))
      = s.countP (fun x => decide (normalizeNode x = v)) := by
  cases s with
  | nil => simp
  | cons x xs =>
      have hcongr : ∀ i ∈ List.range (x :: xs).length,
          (decide (pickRandom (x :: xs) i = some v) = true ↔
            (fun y => decide (normalizeNode y = v))
                ((x :: xs).getD i x) = true) := by
        intro i hi
        rw [List.mem_range, List.length_cons] at hi
        have him : i % (xs.length + 1) = i := Nat.mod_eq_of_lt hi
        simp [pickRandom, query, him]
      rw [List.countP_congr hcongr]
      exact countP_range_getD (x :: xs) x (fun y => decide (normalizeNode y = v))

lemma removedLater_cons_dereg (x d : Node) (rest : List Op) :
    removedLater x (Op.deregister d :: rest)
      = (matchesKey d x || removedLater x rest) := by
  rw [removedLater, List.any_cons]
  rfl

lemma foldl_applyOp_eq (ops : List Op) (s : List Node) :
    ops.foldl applyOp s
      = s.filter (fun x => !removedLater x ops) ++ survivors ops := by
  induction ops generalizing s with
  | nil => simp [survivors, removedLater]
  | cons op rest ih =>
      cases op with
      | register n =>
          rw [List.foldl_cons,
            show applyOp s (Op.register n) = s ++ [normalizeNode n] from rfl,
            ih, List.filter_append, survivors, List.append_assoc]
          have h1 : (fun x => !removedLater x (Op.register n :: rest))
              = (fun x => !removedLater x rest) := by
            funext x
            simp [removedLater]
          rw [h1]
          congr 1
          cases hr : removedLater (normalizeNode n) rest <;>
            simp [List.filter, hr]
      | deregister d =>
          rw [List.foldl_cons,
            show applyOp s (Op.deregister d) = deregister d s from rfl,
            ih, survivors]
          congr 1
          rw [deregister, List.filter_filter]
          apply List.filter_congr
          intro x _
          rw [removedLater_cons_dereg]
          cases h1 : (x.ipv4_address == d.ipv4_address) <;>
            cases h2 : (x.port == d.port) <;>
              cases h3 : removedLater x rest <;>
                simp [matchesKey, h1, h2, h3, bne]

/-- C5: starting from the empty registry, after any history of register
and deregister requests the vector holds exactly the (normalized) nodes
supplied by a register request not followed by a deregister request
matching their `(address, port)` key, in registration order — the spec
invariant, preserved across every operation of the history. -/
theorem run_eq_survivors (ops : List Op) :
    run ops = survivors ops := by
  rw [run, foldl_applyOp_eq]
  simp

lemma mem_survivors_ipv6_none (ops : List Op) :
    ∀ x ∈ survivors ops, x.ipv6_address = none := by
  induction ops with
  | nil => simp [survivors]
  | cons op rest ih =>
      cases op with
      | register n =>
          intro x hx
          rw [survivors] at hx
          rcases List.mem_append.1 hx with h | h
          · by_cases hr : removedLater (normalizeNode n) rest = true
            · rw [if_pos hr] at h
              cases h
            · rw [if_neg hr] at h
              rw [List.mem_singleton.1 h]
              rfl
          · exact ih x h
      | deregister d =>
          intro x hx
          rw [survivors] at hx
          exact ih x hx

lemma mem_run_ipv6_none (ops : List Op) :
    ∀ x ∈ run ops, x.ipv6_address = none := by
  rw [run, foldl_applyOp_eq]
  simp only [List.filter_nil, List.nil_append]
  exact mem_survivors_ipv6_none ops

/-- C3: on any reachable registry state (the result of any request
history), the random pick returns `none` — the empty result, surfaced as
the sentinel message — exactly when the vector is empty; on a non-empty
vector it returns `some` copy of an entry currently in the vector.  Both
outcomes are ordinary values, not errors. -/
theorem pickRandom_empty_iff_run (ops : List Op) (i : Nat) :
    (pickRandom (run ops) i = none ↔ run ops = []) ∧
    (run ops ≠ [] → ∃ x ∈ run ops, pickRandom (run ops) i = some x) :=
  pick_empty_iff_of_ipv6_none (run ops) i (mem_run_ipv6_none ops)

end RustyCoinDns
